import Mathlib

/-!
Shallow embedding of the transcript-to-document pipeline of
`AiTranscriptProcessor.py` (class `AiTranscriptProcessor`): the filename
sanitizer, the AI-call retry loop, the response parsing/validation stage,
the minimum-length quality gate, the output write, and the processing
ledger maintained by `process_file`.

Strings are modelled as `List Char`; Python's `re.sub` passes are
translated as recursive scans over the character list with the leftmost,
greedy match semantics of the `re` module.  The scans recurse on an
explicit fuel argument (initialised to the list length, which bounds the
number of scan steps) so that every definition reduces definitionally.
-/

set_option maxRecDepth 100000

/-- Characters of a Python string, in order. -/
abbrev Chars := List Char

/-- Character list of a Lean string literal (used to write concrete inputs). -/
def str (s : String) : Chars := s.data

/-! ### Filename sanitizer (`AiTranscriptProcessor._sanitize_filename`)

The source applies five `re.sub` passes in order and then `str.strip()`:

1. `re.sub(r"[^\u0000-\u007F\u0080-￿]", "", s)` — keep only code
   points up to U+FFFF;
2. `re.sub(r"( *)_( *)", r"\1 \2", s)` — replace underscore with space;
3. `re.sub(r"( *)[:]( *)", " - ", s)` — replace colon (with surrounding
   spaces) by " - ";
4. `re.sub(r" +", " ", s)` — collapse runs of spaces;
5. `re.sub(r"[^\w\- ]", "", s)` — drop characters other than word
   characters, hyphen and space.
-/

/-- Pass 1 character test: the regex class `[\u0000-\u007F\u0080-￿]`,
i.e. code points up to U+FFFF (characters outside it are removed). -/
def bmpChar (c : Char) : Bool := c.toNat ≤ 0xFFFF

/-- Python regex `\w` for a `str` pattern: underscore plus Unicode
alphanumerics.  Modelled exactly on the Basic Latin and Latin-1 Supplement
blocks (ASCII letters and digits, underscore, and the Latin-1
alphanumerics ª µ º ² ³ ¹ ¼ ½ ¾ À–Ö Ø–ö ø–ÿ); code points above U+00FF are
treated as non-word characters in this embedding. -/
def isWordChar (c : Char) : Bool :=
  (0x61 ≤ c.toNat && c.toNat ≤ 0x7A) || (0x41 ≤ c.toNat && c.toNat ≤ 0x5A) ||
  (0x30 ≤ c.toNat && c.toNat ≤ 0x39) || c.toNat = 0x5F ||
  c.toNat = 0xAA || c.toNat = 0xB5 || c.toNat = 0xBA ||
  c.toNat = 0xB2 || c.toNat = 0xB3 || c.toNat = 0xB9 ||
  (0xBC ≤ c.toNat && c.toNat ≤ 0xBE) ||
  (0xC0 ≤ c.toNat && c.toNat ≤ 0xD6) || (0xD8 ≤ c.toNat && c.toNat ≤ 0xF6) ||
  (0xF8 ≤ c.toNat && c.toNat ≤ 0xFF)

/-- Pass 5 character test: the regex class `[\w\- ]` (characters outside it
are removed). -/
def allowedChar (c : Char) : Bool := isWordChar c || c = '-' || c = ' '

/-- Pass 2, `re.sub(r"( *)_( *)", r"\1 \2", s)`, by fuelled scan.  Each
match consumes the spaces around one underscore and the replacement
re-emits both captured space runs verbatim with the underscore turned into
a single space, so the scan can emit non-underscore characters unchanged
and, at an underscore, emit one space followed by the consumed trailing
space run. -/
def underscoreSubF : Nat → Chars → Chars
  | _, [] => []
  | fuel + 1, '_' :: rest =>
      ' ' :: (rest.takeWhile (· = ' ') ++ underscoreSubF fuel (rest.dropWhile (· = ' ')))
  | fuel + 1, c :: rest => c :: underscoreSubF fuel rest
  | 0, l => l

/-- Pass 2 at its starting fuel. -/
def underscoreSub (l : Chars) : Chars := underscoreSubF l.length l

/-- The per-character effect of pass 2: underscore becomes a space. -/
def usMap (c : Char) : Char := if c = '_' then ' ' else c

/-- Pass 3, `re.sub(r"( *)[:]( *)", " - ", s)`, by fuelled scan.  A match
consumes the space run before a colon, the colon, and the space run after
it, and the replacement is the literal `" - "` (the captured spaces are
dropped).  A space run not followed by a colon admits no match anywhere
inside it and is emitted unchanged. -/
def colonSubF : Nat → Chars → Chars
  | _, [] => []
  | fuel + 1, ':' :: rest => ' ' :: '-' :: ' ' :: colonSubF fuel (rest.dropWhile (· = ' '))
  | fuel + 1, ' ' :: rest =>
      match rest.dropWhile (· = ' ') with
      | ':' :: rest2 => ' ' :: '-' :: ' ' :: colonSubF fuel (rest2.dropWhile (· = ' '))
      | tail => (' ' :: rest.takeWhile (· = ' ')) ++ colonSubF fuel tail
  | fuel + 1, c :: rest => c :: colonSubF fuel rest
  | 0, l => l

/-- Pass 3 at its starting fuel. -/
def colonSub (l : Chars) : Chars := colonSubF l.length l

/-- Pass 4, `re.sub(r" +", " ", s)`, by fuelled scan: each maximal run of
spaces is one greedy match, replaced by a single space. -/
def collapseSpacesF : Nat → Chars → Chars
  | _, [] => []
  | fuel + 1, ' ' :: rest => ' ' :: collapseSpacesF fuel (rest.dropWhile (· = ' '))
  | fuel + 1, c :: rest => c :: collapseSpacesF fuel rest
  | 0, l => l

/-- Pass 4 at its starting fuel. -/
def collapseSpaces (l : Chars) : Chars := collapseSpacesF l.length l

/-- Python `str.isspace` characters in the ASCII range, as removed by
`str.strip()` (the sanitizer's output can only contain the space character
among these, so the ASCII set is exact for this pipeline). -/
def wsChar (c : Char) : Bool :=
  c = ' ' || c = '\t' || c = '\n' || c = '\r' || c = '\x0b' || c = '\x0c'

/-- Python `str.strip()`: remove leading and trailing whitespace. -/
def pyStrip (l : Chars) : Chars :=
  ((l.dropWhile wsChar).reverse.dropWhile wsChar).reverse

/-- `AiTranscriptProcessor._sanitize_filename` on a string argument: the
five substitution passes in source order, then `strip()`. -/
def sanitize_filename (title : Chars) : Chars :=
  pyStrip
    ((collapseSpaces (colonSub (underscoreSub (title.filter bmpChar)))).filter
      allowedChar)

/-- The character class `[A-Za-z0-9_\- ]` (ASCII alphanumerics,
underscore, hyphen, space) exactly as the spec's words describe it, for
comparison with what the code actually allows. -/
def specFilenameClass (c : Char) : Bool :=
  (0x41 ≤ c.toNat && c.toNat ≤ 0x5A) || (0x61 ≤ c.toNat && c.toNat ≤ 0x7A) ||
  (0x30 ≤ c.toNat && c.toNat ≤ 0x39) || c = '_' || c = '-' || c = ' '

/-! ### JSON reply decoding

`reformat_transcript` trims the raw reply to the span from the first `{`
to the last `}` and feeds it to `json.loads`, then requires the keys
`title`, `summary`, `content`.
-/

/-- Trimming of the raw reply (lines 225–227 of the source):
`re.sub(r"^[^\x7b]*", "", reply)` removes everything before the first
opening brace and `re.sub(r"[^\x7d]*$", "", reply)` removes everything
after the last closing brace. -/
def stripReply (l : Chars) : Chars :=
  ((l.dropWhile (· ≠ '\x7b')).reverse.dropWhile (· ≠ '\x7d')).reverse

/-- JSON whitespace accepted between tokens by `json.loads`. -/
def jsonWs (c : Char) : Bool :=
  c = ' ' || c = '\t' || c = '\n' || c = '\r'

/-- Single-character JSON string escapes (`\"`, `\\`, `\/`, `\b`, `\f`,
`\n`, `\r`, `\t`). -/
def unescape (c : Char) : Option Char :=
  if c = '"' then some '"'
  else if c = '\\' then some '\\'
  else if c = '/' then some '/'
  else if c = 'n' then some '\n'
  else if c = 't' then some '\t'
  else if c = 'r' then some '\r'
  else if c = 'b' then some '\x08'
  else if c = 'f' then some '\x0c'
  else none

/-- Body of a JSON string after its opening quote: returns the decoded
characters and the remainder after the closing quote. -/
def parseStringBody : Chars → Option (Chars × Chars)
  | [] => none
  | '"' :: rest => some ([], rest)
  | '\\' :: [] => none
  | '\\' :: e :: rest => do
      let c ← unescape e
      let (s, r) ← parseStringBody rest
      pure (c :: s, r)
  | c :: rest => do
      let (s, r) ← parseStringBody rest
      pure (c :: s, r)

/-- Members of a JSON object after its opening brace, when the object is
non-empty: `"key" : "value"` pairs separated by commas, up to and
including the closing brace.  Returns the pairs and the remainder after
the closing brace. -/
def parseMembersAux : Nat → Chars → Option (List (Chars × Chars) × Chars)
  | 0, _ => none
  | fuel + 1, l =>
    match l.dropWhile jsonWs with
    | '"' :: r1 => do
        let (key, r2) ← parseStringBody r1
        match r2.dropWhile jsonWs with
        | ':' :: r3 =>
          match r3.dropWhile jsonWs with
          | '"' :: r4 => do
              let (val, r5) ← parseStringBody r4
              match r5.dropWhile jsonWs with
              | ',' :: r6 => do
                  let (rest, r7) ← parseMembersAux fuel r6
                  pure ((key, val) :: rest, r7)
              | '\x7d' :: r6 => pure ([(key, val)], r6)
              | _ => none
          | _ => none
        | _ => none
    | _ => none

/-- Modelled: Python `json.loads`, restricted to a single flat JSON object
with string keys and string values — the schema the prompt demands of the
AI reply.  Any other input (including other well-formed JSON values, which
the real `json.loads` would accept before the field extraction or the
`len` calls fail downstream) is treated as a decode failure; both paths
end the processing of the file with no result. -/
def json_loads (l : Chars) : Option (List (Chars × Chars)) :=
  match l.dropWhile jsonWs with
  | '\x7b' :: r =>
    match r.dropWhile jsonWs with
    | '\x7d' :: r2 => if (r2.dropWhile jsonWs).isEmpty then some [] else none
    | _ =>
        match parseMembersAux (r.length + 1) r with
        | some (ms, r2) => if (r2.dropWhile jsonWs).isEmpty then some ms else none
        | none => none
  | _ => none

/-- Lookup in a decoded JSON object, mirroring a Python dict built by
`json.loads`: on duplicate keys the last occurrence wins. -/
def dictGet (m : List (Chars × Chars)) (k : Chars) : Option Chars :=
  List.lookup k m.reverse

/-- Python `key in json_response`. -/
def dictHas (m : List (Chars × Chars)) (k : Chars) : Bool :=
  (dictGet m k).isSome

/-! ### The AI call retry loop (`reformat_transcript`, lines 179–208)

The constants and the `for attempt in range(MAX_RETRIES)` loop.  One
`CallResult` per attempt index models what the awaited
`chat.completions.create` call does on that attempt: time out, raise some
other exception, or return a response object.  The loop is modelled with
the remaining iteration count as explicit fuel, kept in sync with the
`attempt` counter.
-/

/-- Source line 179. -/
def MAX_RETRIES : Nat := 3

/-- The `message.content` of each element of `response.choices` (`none`
models JSON `null`). -/
structure AiResponse where
  choices : List (Option Chars)
deriving DecidableEq

/-- Behaviour of the awaited AI call on one attempt. -/
inductive CallResult where
  /-- `asyncio.TimeoutError` after the 30s timeout. -/
  | timeout
  /-- any other exception raised by the call. -/
  | failure
  /-- a response object is returned. -/
  | ok (r : AiResponse)
deriving DecidableEq

/-- How the retry loop ended. -/
inductive LoopExit where
  /-- the final attempt timed out: "Request timed out after all retries",
  `return None` (line 202). -/
  | timedOut (callsMade sleeps : Nat)
  /-- a non-timeout exception: "Request to AI failed", `return None`
  (line 208). -/
  | requestFailed (callsMade sleeps : Nat)
  /-- `break` on success (line 197). -/
  | gotResponse (r : AiResponse) (callsMade sleeps : Nat)
  /-- the loop ran out of iterations without `break`/`return`; `response`
  is then unbound and the later read raises `NameError`.  Unreachable from
  attempt 0, because the last timeout returns. -/
  | fellThrough (callsMade sleeps : Nat)
deriving DecidableEq

/-- One state of the loop: `fuel` iterations remain, the current attempt
index is `attempt`, and `sleeps` one-second `asyncio.sleep(1)` delays have
been taken so far.  `callsMade` counts issued `create` calls; each
iteration issues exactly one. -/
def loopIter (calls : Nat → CallResult) : Nat → Nat → Nat → LoopExit
  | 0, attempt, sleeps => .fellThrough attempt sleeps
  | fuel + 1, attempt, sleeps =>
    match calls attempt with
    | .ok r => .gotResponse r (attempt + 1) sleeps
    | .failure => .requestFailed (attempt + 1) sleeps
    | .timeout =>
        if attempt = MAX_RETRIES - 1 then .timedOut (attempt + 1) sleeps
        else loopIter calls fuel (attempt + 1) (sleeps + 1)

/-- The whole `for attempt in range(MAX_RETRIES)` loop. -/
def runLoop (calls : Nat → CallResult) : LoopExit :=
  loopIter calls MAX_RETRIES 0 0

/-! ### Response handling (`reformat_transcript`, lines 210–285) -/

/-- Minimum lengths set in `__init__` (lines 31–33): anything shorter is
skipped. -/
def min_title_length : Nat := 20

/-- Minimum summary length set in `__init__`. -/
def min_summary_length : Nat := 100

/-- Minimum content length set in `__init__`. -/
def min_content_length : Nat := 500

/-- The validity check of lines 249–253: all three sections must be
strictly longer than their minimum. -/
def lengthGate (title summary content : Chars) : Bool :=
  decide (title.length > min_title_length) &&
  decide (summary.length > min_summary_length) &&
  decide (content.length > min_content_length)

/-- The fields of the input JSON file that the pipeline reads:
`metadata["channel_name"]` and the `text` of each transcript segment. -/
structure InputJson where
  channel_name : Chars
  transcript : List Chars
deriving DecidableEq

/-- The dict returned by `reformat_transcript` on success (lines
275–281). -/
structure ReformatResult where
  title : Chars
  summary : Chars
  content : Chars
  filename : Chars
  filepath : Chars
deriving DecidableEq

/-- One output file write: `json.dump(json_response, f, ...)` to
`filepath` (lines 271–272), after `os.makedirs(output_dir)`. -/
structure WriteRec where
  path : Chars
  doc : List (Chars × Chars)
deriving DecidableEq

/-- How one `reformat_transcript` run ended. -/
inductive Outcome where
  /-- the success path: file saved, result returned. -/
  | ok
  /-- final timeout (line 202). -/
  | errTimeout
  /-- non-timeout request failure (line 208). -/
  | errRequest
  /-- an exception reached the outer `except Exception` (line 283):
  empty/`None` message content (`TypeError` in `re.sub`), empty `choices`
  (`IndexError`), or the unbound `response` after loop fallthrough. -/
  | errException
  /-- `ValueError` from `json.loads` or the required-fields check, caught
  at line 244: "Error parsing AI response". -/
  | errParse
  /-- the length gate failed: "Skipping file: Reformatted content is too
  short", `return None` (line 259). -/
  | skipTooShort
deriving DecidableEq

/-- Python `reply = response.choices[0].message.content or None`: both a
JSON `null` content and an empty string are collapsed to `None`. -/
def orNone (c : Option Chars) : Option Chars :=
  match c with
  | some s => if s = [] then none else some s
  | none => none

/-- The required keys checked at lines 235–237. -/
def requiredKeys : List Chars := [str "title", str "summary", str "content"]

/-- Lines 261–281: directory structure, file write and result for a
document that passed the gate.  `os.path.join` uses `/`. -/
def saveStage (j : List (Chars × Chars)) (channel_name title summary content : Chars) :
    Option ReformatResult × List WriteRec × Outcome :=
  if lengthGate title summary content then
    let channel := sanitize_filename channel_name
    let output_dir := str "processed/" ++ channel
    let filename := sanitize_filename title ++ str ".json"
    let filepath := output_dir ++ str "/" ++ filename
    (some ⟨title, summary, content, filename, filepath⟩, [⟨filepath, j⟩], .ok)
  else
    (none, [], .skipTooShort)

/-- Lines 210–285 applied to a received response object.  `if not
response:` is never taken (a response object is truthy), and
`hasattr(response.choices, "model_extra")` is always `False` because
`choices` is a plain list, so control always reaches the `else` branch at
line 222. -/
def handleResponse (r : AiResponse) (inp : InputJson) :
    Option ReformatResult × List WriteRec × Outcome :=
  match r.choices with
  | [] => (none, [], .errException)
  | c0 :: _ =>
    match orNone c0 with
    | none => (none, [], .errException)
    | some reply0 =>
      match json_loads (stripReply reply0) with
      | none => (none, [], .errParse)
      | some j =>
          if requiredKeys.all (fun k => dictHas j k) then
            saveStage j inp.channel_name ((dictGet j (str "title")).getD [])
              ((dictGet j (str "summary")).getD [])
              ((dictGet j (str "content")).getD [])
          else (none, [], .errParse)

/-- The observable behaviour of one `reformat_transcript` call. -/
structure ReformatTrace where
  callsMade : Nat
  sleeps : Nat
  writes : List WriteRec
  result : Option ReformatResult
  outcome : Outcome
deriving DecidableEq

/-- `AiTranscriptProcessor.reformat_transcript`: the retry loop followed by
response handling. -/
def reformat_transcript (calls : Nat → CallResult) (inp : InputJson) : ReformatTrace :=
  match runLoop calls with
  | .timedOut n k => ⟨n, k, [], none, .errTimeout⟩
  | .requestFailed n k => ⟨n, k, [], none, .errRequest⟩
  | .fellThrough n k => ⟨n, k, [], none, .errException⟩
  | .gotResponse r n k =>
      match handleResponse r inp with
      | (res, ws, oc) => ⟨n, k, ws, res, oc⟩

/-! ### The processing ledger (`process_file`, lines 288–329) -/

/-- One ledger value: `{"output_path": ..., "processed_date": ...}`. -/
structure LedgerEntry where
  output_path : Chars
  processed_date : Chars
deriving DecidableEq

/-- The ledger read from `.processed_files.json`: a dict keyed by base
filename, modelled as an association list with unique keys (first match
wins on lookup, in-place replacement on update). -/
abbrev Ledger := List (Chars × LedgerEntry)

/-- `processed_files[filename] = {...}`: replace the entry in place, or
append a new one. -/
def ledgerInsert (k : Chars) (v : LedgerEntry) : Ledger → Ledger
  | [] => [(k, v)]
  | (k', v') :: rest =>
      if k' = k then (k, v) :: rest else (k', v') :: ledgerInsert k v rest

/-- `os.path.basename`: the part of the path after the last `/`. -/
def basename (file : Chars) : Chars :=
  (file.reverse.takeWhile (· ≠ '/')).reverse

/-- The observable behaviour of one `process_file` call: whether
`reformat_transcript` (and hence the AI) was invoked, the ledger state
after the call, the output files written, and the returned result. -/
structure ProcessFileTrace where
  aiCalled : Bool
  ledger : Ledger
  writes : List WriteRec
  result : Option ReformatResult
deriving DecidableEq

/-- The body of `process_file` from line 315 on: run
`reformat_transcript`; on a result, record it in the ledger (keyed by base
filename) and rewrite the ledger file. -/
def runAndRecord (ledger : Ledger) (filename : Chars) (calls : Nat → CallResult)
    (inp : InputJson) (now : Chars) : ProcessFileTrace :=
  let t := reformat_transcript calls inp
  match t.result with
  | some r => ⟨true, ledgerInsert filename ⟨r.filepath, now⟩ ledger, t.writes, some r⟩
  | none => ⟨true, ledger, t.writes, none⟩

/-- `AiTranscriptProcessor.process_file`.  `ledger` is the content of
`.processed_files.json` read at the start of the call (an unreadable file
yields `{}`), `pathExists` is `os.path.exists`, `inp` the parsed input
file, `now` the `str(datetime.now())` timestamp. -/
def process_file (ledger : Ledger) (pathExists : Chars → Bool) (file : Chars)
    (calls : Nat → CallResult) (inp : InputJson) (now : Chars) : ProcessFileTrace :=
  let filename := basename file
  match List.lookup filename ledger with
  | some entry =>
      if pathExists entry.output_path then ⟨false, ledger, [], none⟩
      else runAndRecord ledger filename calls inp now
  | none => runAndRecord ledger filename calls inp now

/-! ### Concrete fixtures for witnesses and counterexamples -/

/-- A 21-character title (one more than the minimum). -/
def wTitle : Chars := List.replicate 21 't'

/-- A 101-character summary. -/
def wSummary : Chars := List.replicate 101 's'

/-- A 501-character content. -/
def wContent : Chars := List.replicate 501 'c'

/-- A well-formed AI reply over the three fixture fields. -/
def wReply : Chars :=
  str "\x7b\"title\":\"" ++ wTitle ++ str "\",\"summary\":\"" ++ wSummary ++
    str "\",\"content\":\"" ++ wContent ++ str "\"\x7d"

/-- A response carrying the well-formed reply. -/
def wResp : AiResponse := ⟨[some wReply]⟩

/-- A small input record. -/
def wInp : InputJson := ⟨str "Some Channel", [str "hello world"]⟩

/-- Attempts that always succeed with the well-formed reply. -/
def callsGood : Nat → CallResult := fun _ => .ok wResp

/-- Attempts that always time out. -/
def callsAllTimeout : Nat → CallResult := fun _ => .timeout

/-- Attempts that always fail with a non-timeout error. -/
def callsAllFail : Nat → CallResult := fun _ => .failure

/-- Attempts that always return a reply with no JSON object in it. -/
def callsNoJson : Nat → CallResult := fun _ => .ok ⟨[some (str "no json here")]⟩

/-- Attempts that always return an empty message body. -/
def callsEmptyBody : Nat → CallResult := fun _ => .ok ⟨[some []]⟩

example : sanitize_filename (str "Hello: World!") = str "Hello - World" := by decide

example : sanitize_filename (str "a ! b") = str "a  b" := by decide

example : sanitize_filename (str "a  b") = str "a b" := by decide

example : sanitize_filename (str "a_b: c") = str "a b - c" := by decide

example : json_loads (str "\x7b\"a\":\"b\"\x7d") = some [(str "a", str "b")] := by decide

example :
    json_loads (stripReply (str "xx \x7b\"a\":\"b\"\x7d yy")) = some [(str "a", str "b")] := by
  decide

example : reformat_transcript callsAllTimeout wInp = ⟨3, 2, [], none, .errTimeout⟩ := by
  decide

example : reformat_transcript callsAllFail wInp = ⟨1, 0, [], none, .errRequest⟩ := by
  decide

example : reformat_transcript callsNoJson wInp = ⟨1, 0, [], none, .errParse⟩ := by
  decide

example : reformat_transcript callsEmptyBody wInp = ⟨1, 0, [], none, .errException⟩ := by
  decide

example : (reformat_transcript callsGood wInp).outcome = .ok := by decide

example :
    (reformat_transcript callsGood wInp).result =
      some ⟨wTitle, wSummary, wContent,
        wTitle ++ str ".json", str "processed/Some Channel/" ++ wTitle ++ str ".json"⟩ := by
  decide

/-! ### Helper lemmas about the sanitizer passes -/

theorem dropWhile_length_le (p : Char → Bool) (l : Chars) :
    (l.dropWhile p).length ≤ l.length := by
  induction l with
  | nil => simp
  | cons c t ih =>
      rw [List.dropWhile_cons]
      by_cases h : p c = true
      · simp only [if_pos h, List.length_cons]
        omega
      · simp [h]

theorem mem_of_mem_takeWhile {p : Char → Bool} {x : Char} {l : Chars}
    (h : x ∈ l.takeWhile p) : x ∈ l := by
  have h2 : x ∈ l.takeWhile p ++ l.dropWhile p := List.mem_append_left _ h
  rwa [List.takeWhile_append_dropWhile] at h2

theorem mem_of_mem_dropWhile {p : Char → Bool} {x : Char} {l : Chars}
    (h : x ∈ l.dropWhile p) : x ∈ l := by
  have h2 : x ∈ l.takeWhile p ++ l.dropWhile p := List.mem_append_right _ h
  rwa [List.takeWhile_append_dropWhile] at h2

theorem map_eq_self_of (f : Char → Char) (l : Chars) (h : ∀ x ∈ l, f x = x) :
    l.map f = l := by
  induction l with
  | nil => rfl
  | cons c t ih => simp_all

theorem usMap_ne_underscore (a : Char) : usMap a ≠ '_' := by
  by_cases h : a = '_' <;> simp [usMap, h]

theorem underscoreSubF_eq_map :
    ∀ (fuel : Nat) (l : Chars), l.length ≤ fuel →
      underscoreSubF fuel l = l.map usMap := by
  intro fuel
  induction fuel with
  | zero =>
      intro l hl
      have hnil : l = [] := List.eq_nil_of_length_eq_zero (Nat.le_zero.mp hl)
      subst hnil; rfl
  | succ fuel ih =>
      intro l hl
      match l with
      | [] => rfl
      | c :: rest =>
          simp only [List.length_cons] at hl
          have hrest : rest.length ≤ fuel := by omega
          by_cases hc : c = '_'
          · subst hc
            have hdrop : (rest.dropWhile (· = ' ')).length ≤ fuel :=
              le_trans (dropWhile_length_le _ _) hrest
            have hsp : ∀ x ∈ rest.takeWhile (· = ' '), usMap x = x := by
              intro x hx
              have hx' := List.mem_takeWhile_imp hx
              simp only [decide_eq_true_eq] at hx'
              simp [usMap, hx']
            have hkey : rest.takeWhile (· = ' ') ++
                (rest.dropWhile (· = ' ')).map usMap = rest.map usMap := by
              conv_rhs => rw [← List.takeWhile_append_dropWhile (· = ' ') rest]
              rw [List.map_append, map_eq_self_of _ _ hsp]
            calc underscoreSubF (fuel + 1) ('_' :: rest)
                = ' ' :: (rest.takeWhile (· = ' ') ++
                    underscoreSubF fuel (rest.dropWhile (· = ' '))) := by
                  simp [underscoreSubF]
              _ = ' ' :: (rest.takeWhile (· = ' ') ++
                    (rest.dropWhile (· = ' ')).map usMap) := by rw [ih _ hdrop]
              _ = ' ' :: rest.map usMap := by rw [hkey]
              _ = ('_' :: rest).map usMap := by simp [usMap]
          · have hmap : usMap c = c := by simp [usMap, hc]
            calc underscoreSubF (fuel + 1) (c :: rest)
                = c :: underscoreSubF fuel rest := by simp [underscoreSubF, hc]
              _ = c :: rest.map usMap := by rw [ih rest hrest]
              _ = (c :: rest).map usMap := by rw [List.map_cons, hmap]

theorem underscoreSub_eq_map (l : Chars) : underscoreSub l = l.map usMap :=
  underscoreSubF_eq_map l.length l le_rfl

theorem colonSubF_cons_colon (fuel : Nat) (rest : Chars) :
    colonSubF (fuel + 1) (':' :: rest) =
      ' ' :: '-' :: ' ' :: colonSubF fuel (rest.dropWhile (· = ' ')) := by
  simp [colonSubF]

theorem colonSubF_cons_space_colon (fuel : Nat) (rest rest2 : Chars)
    (h : rest.dropWhile (· = ' ') = ':' :: rest2) :
    colonSubF (fuel + 1) (' ' :: rest) =
      ' ' :: '-' :: ' ' :: colonSubF fuel (rest2.dropWhile (· = ' ')) := by
  simp only [colonSubF]
  rw [h]
  rfl

theorem colonSubF_cons_space_other (fuel : Nat) (rest tail : Chars)
    (h : rest.dropWhile (· = ' ') = tail) (h2 : ∀ r2, tail ≠ ':' :: r2) :
    colonSubF (fuel + 1) (' ' :: rest) =
      (' ' :: rest.takeWhile (· = ' ')) ++ colonSubF fuel tail := by
  simp only [colonSubF]
  rw [h]
  match tail, h2 with
  | [], _ => rfl
  | c :: r, h2 =>
      by_cases hc : c = ':'
      · exact absurd (hc ▸ rfl) (h2 r)
      · simp [hc]

theorem colonSubF_cons_other (fuel : Nat) (c : Char) (rest : Chars)
    (hc : c ≠ ':') (hsp : c ≠ ' ') :
    colonSubF (fuel + 1) (c :: rest) = c :: colonSubF fuel rest := by
  simp [colonSubF, hc, hsp]

theorem colonSubF_not_mem (x : Char) (hx1 : x ≠ ' ') (hx2 : x ≠ '-') :
    ∀ (fuel : Nat) (l : Chars), l.length ≤ fuel → x ∉ l →
      x ∉ colonSubF fuel l := by
  intro fuel
  induction fuel with
  | zero =>
      intro l hl _
      have hnil : l = [] := List.eq_nil_of_length_eq_zero (Nat.le_zero.mp hl)
      subst hnil; simp [colonSubF]
  | succ fuel ih =>
      intro l hl hnot
      rcases l with _ | ⟨c, rest⟩
      · simp [colonSubF]
      · simp only [List.length_cons] at hl
        have hrest : rest.length ≤ fuel := by omega
        simp only [List.mem_cons, not_or] at hnot
        obtain ⟨hxc, hxrest⟩ := hnot
        by_cases hc1 : c = ':'
        · subst hc1
          rw [colonSubF_cons_colon]
          have hlen : (rest.dropWhile (· = ' ')).length ≤ fuel :=
            le_trans (dropWhile_length_le _ _) hrest
          have hnd : x ∉ rest.dropWhile (· = ' ') := fun h =>
            hxrest (mem_of_mem_dropWhile h)
          simp only [List.mem_cons, not_or]
          exact ⟨hx1, hx2, hx1, ih _ hlen hnd⟩
        · by_cases hc2 : c = ' '
          · subst hc2
            cases hd : rest.dropWhile (· = ' ') with
            | nil =>
                rw [colonSubF_cons_space_other fuel rest [] hd
                  (fun r2 h => List.noConfusion h)]
                intro hmem
                rcases List.mem_append.mp hmem with h | h
                · rcases List.mem_cons.mp h with h' | h'
                  · exact hx1 h'
                  · have := List.mem_takeWhile_imp h'
                    simp only [decide_eq_true_eq] at this
                    exact hx1 this
                · have : colonSubF fuel ([] : Chars) = [] := by
                    cases fuel <;> rfl
                  rw [this] at h; simp at h
            | cons d rest2 =>
                by_cases hdc : d = ':'
                · subst hdc
                  rw [colonSubF_cons_space_colon fuel rest rest2 hd]
                  have h1 : rest2.length < rest.length := by
                    have h2 := dropWhile_length_le (· = ' ') rest
                    rw [hd] at h2
                    simp only [List.length_cons] at h2
                    omega
                  have hlen : (rest2.dropWhile (· = ' ')).length ≤ fuel := by
                    have := dropWhile_length_le (· = ' ') rest2
                    omega
                  have hnd : x ∉ rest2.dropWhile (· = ' ') := by
                    intro h
                    have h3 : x ∈ (':' :: rest2 : Chars) :=
                      List.mem_cons_of_mem _ (mem_of_mem_dropWhile h)
                    rw [← hd] at h3
                    exact hxrest (mem_of_mem_dropWhile h3)
                  simp only [List.mem_cons, not_or]
                  exact ⟨hx1, hx2, hx1, ih _ hlen hnd⟩
                · rw [colonSubF_cons_space_other fuel rest (d :: rest2) hd
                    (fun r2 h => hdc (List.head_eq_of_cons_eq h))]
                  have hlen : (d :: rest2).length ≤ fuel := by
                    have h2 := dropWhile_length_le (· = ' ') rest
                    rw [hd] at h2
                    omega
                  have hnd : x ∉ (d :: rest2 : Chars) := by
                    rw [← hd]
                    exact fun h => hxrest (mem_of_mem_dropWhile h)
                  intro hmem
                  rcases List.mem_append.mp hmem with h | h
                  · rcases List.mem_cons.mp h with h' | h'
                    · exact hx1 h'
                    · have := List.mem_takeWhile_imp h'
                      simp only [decide_eq_true_eq] at this
                      exact hx1 this
                  · exact ih _ hlen hnd h
          · rw [colonSubF_cons_other fuel c rest hc1 hc2]
            simp only [List.mem_cons, not_or]
            exact ⟨hxc, ih rest hrest hxrest⟩

theorem colonSubF_id :
    ∀ (fuel : Nat) (l : Chars), l.length ≤ fuel → ':' ∉ l →
      colonSubF fuel l = l := by
  intro fuel
  induction fuel with
  | zero =>
      intro l hl _
      have hnil : l = [] := List.eq_nil_of_length_eq_zero (Nat.le_zero.mp hl)
      subst hnil; rfl
  | succ fuel ih =>
      intro l hl hnot
      rcases l with _ | ⟨c, rest⟩
      · rfl
      · simp only [List.length_cons] at hl
        have hrest : rest.length ≤ fuel := by omega
        simp only [List.mem_cons, not_or] at hnot
        obtain ⟨hxc, hxrest⟩ := hnot
        by_cases hc1 : c = ':'
        · exact absurd hc1.symm hxc
        · by_cases hc2 : c = ' '
          · subst hc2
            cases hd : rest.dropWhile (· = ' ') with
            | nil =>
                rw [colonSubF_cons_space_other fuel rest [] hd
                  (fun r2 h => List.noConfusion h)]
                have h0 : colonSubF fuel ([] : Chars) = [] := by
                  cases fuel <;> rfl
                rw [h0, List.append_nil]
                have := List.takeWhile_append_dropWhile (· = ' ') rest
                rw [hd, List.append_nil] at this
                rw [this]
            | cons d rest2 =>
                have hd_ne : d ≠ ':' := by
                  intro hdc
                  apply hxrest
                  have hmem : d ∈ rest.dropWhile (· = ' ') := by
                    rw [hd]; exact List.mem_cons_self _ _
                  exact hdc ▸ mem_of_mem_dropWhile hmem
                rw [colonSubF_cons_space_other fuel rest (d :: rest2) hd
                  (fun r2 h => hd_ne (by injection h))]
                have hlen : (d :: rest2).length ≤ fuel := by
                  have h2 := dropWhile_length_le (· = ' ') rest
                  rw [hd] at h2
                  omega
                have hnd : ':' ∉ (d :: rest2 : Chars) := by
                  rw [← hd]
                  exact fun h => hxrest (mem_of_mem_dropWhile h)
                rw [ih _ hlen hnd]
                have hsplit := List.takeWhile_append_dropWhile (· = ' ') rest
                rw [hd] at hsplit
                simp only [List.cons_append]
                rw [hsplit]
          · rw [colonSubF_cons_other fuel c rest hc1 hc2, ih rest hrest hxrest]

theorem mem_of_getLast?_eq {l : Chars} {a : Char} (h : l.getLast? = some a) :
    a ∈ l := by
  obtain ⟨hne, heq⟩ := List.mem_getLast?_eq_getLast (Option.mem_def.mpr h)
  exact heq ▸ List.getLast_mem hne

theorem getLast?_dropWhile (p : Char → Bool) :
    ∀ l : Chars, l.dropWhile p ≠ [] →
      (l.dropWhile p).getLast? = l.getLast? := by
  intro l
  induction l with
  | nil => simp
  | cons c t ih =>
      intro h
      rw [List.dropWhile_cons] at h ⊢
      by_cases hp : p c = true
      · rw [if_pos hp] at h ⊢
        rw [ih h]
        have ht : t ≠ [] := by
          intro he
          subst he
          simp at h
        cases t with
        | nil => exact absurd rfl ht
        | cons b tb => rw [List.getLast?_cons_cons]
      · rw [if_neg hp]

theorem head?_dropWhile_not_sat (p : Char → Bool) :
    ∀ (l : Chars) (c : Char), (l.dropWhile p).head? = some c → p c = false := by
  intro l
  induction l with
  | nil => intro c h; simp at h
  | cons a t ih =>
      intro c h
      rw [List.dropWhile_cons] at h
      by_cases hp : p a = true
      · rw [if_pos hp] at h
        exact ih c h
      · rw [if_neg hp] at h
        simp only [List.head?_cons, Option.some.injEq] at h
        subst h
        exact Bool.eq_false_iff.mpr hp

theorem dropWhile_eq_self_of_head (p : Char → Bool) (l : Chars)
    (h : ∀ c, l.head? = some c → p c = false) : l.dropWhile p = l := by
  cases l with
  | nil => rfl
  | cons c t =>
      have hc := h c rfl
      rw [List.dropWhile_cons, if_neg (by simp [hc])]

theorem collapseSpacesF_cons_space (fuel : Nat) (rest : Chars) :
    collapseSpacesF (fuel + 1) (' ' :: rest) =
      ' ' :: collapseSpacesF fuel (rest.dropWhile (· = ' ')) := by
  simp [collapseSpacesF]

theorem collapseSpacesF_cons_other (fuel : Nat) (c : Char) (rest : Chars)
    (h : c ≠ ' ') :
    collapseSpacesF (fuel + 1) (c :: rest) = c :: collapseSpacesF fuel rest := by
  simp [collapseSpacesF, h]

theorem collapseSpacesF_cons (fuel : Nat) (c : Char) (rest : Chars) :
    ∃ u, collapseSpacesF (fuel + 1) (c :: rest) = c :: u := by
  by_cases h : c = ' '
  · subst h
    exact ⟨_, collapseSpacesF_cons_space fuel rest⟩
  · exact ⟨_, collapseSpacesF_cons_other fuel c rest h⟩

theorem collapseSpacesF_nil (fuel : Nat) : collapseSpacesF fuel [] = [] := by
  cases fuel with
  | zero => rfl
  | succ fuel => rfl

theorem collapseSpacesF_eq_nil (fuel : Nat) (l : Chars)
    (h : collapseSpacesF fuel l = []) : l = [] := by
  cases fuel with
  | zero =>
      cases l with
      | nil => rfl
      | cons c t => exact h
  | succ fuel =>
      cases l with
      | nil => rfl
      | cons c t =>
          obtain ⟨u, hu⟩ := collapseSpacesF_cons fuel c t
          rw [hu] at h
          exact List.noConfusion h

theorem collapseSpacesF_mem :
    ∀ (fuel : Nat) (l : Chars), l.length ≤ fuel →
      ∀ x ∈ collapseSpacesF fuel l, x ∈ l := by
  intro fuel
  induction fuel with
  | zero =>
      intro l hl x hx
      have hnil : l = [] := List.eq_nil_of_length_eq_zero (Nat.le_zero.mp hl)
      subst hnil
      rw [collapseSpacesF_nil] at hx
      simp at hx
  | succ fuel ih =>
      intro l hl x hx
      rcases l with _ | ⟨c, rest⟩
      · rw [collapseSpacesF_nil] at hx
        simp at hx
      · simp only [List.length_cons] at hl
        have hrest : rest.length ≤ fuel := by omega
        by_cases hc : c = ' '
        · subst hc
          rw [collapseSpacesF_cons_space] at hx
          have hlen : (rest.dropWhile (· = ' ')).length ≤ fuel :=
            le_trans (dropWhile_length_le _ _) hrest
          rcases List.mem_cons.mp hx with h | h
          · exact h ▸ List.mem_cons_self _ _
          · exact List.mem_cons_of_mem _
              (mem_of_mem_dropWhile (ih _ hlen x h))
        · rw [collapseSpacesF_cons_other fuel c rest hc] at hx
          rcases List.mem_cons.mp hx with h | h
          · exact h ▸ List.mem_cons_self _ _
          · exact List.mem_cons_of_mem _ (ih rest hrest x h)

theorem all_spaces_getLast (l : Chars) (hne : l ≠ [])
    (h : ∀ x ∈ l, x = ' ') : l.getLast? = some ' ' := by
  induction l with
  | nil => exact absurd rfl hne
  | cons c t ih =>
      cases t with
      | nil =>
          have := h c (List.mem_cons_self _ _)
          subst this
          rfl
      | cons b tb =>
          rw [List.getLast?_cons_cons]
          exact ih (List.cons_ne_nil _ _) fun x hx => h x (List.mem_cons_of_mem _ hx)

theorem collapseSpacesF_getLast :
    ∀ (fuel : Nat) (l : Chars), l.length ≤ fuel →
      (collapseSpacesF fuel l).getLast? = some ' ' → l.getLast? = some ' ' := by
  intro fuel
  induction fuel with
  | zero =>
      intro l hl h
      have hnil : l = [] := List.eq_nil_of_length_eq_zero (Nat.le_zero.mp hl)
      subst hnil
      rw [collapseSpacesF_nil] at h
      exact h
  | succ fuel ih =>
      intro l hl h
      rcases l with _ | ⟨c, rest⟩
      · rw [collapseSpacesF_nil] at h
        exact h
      · simp only [List.length_cons] at hl
        have hrest : rest.length ≤ fuel := by omega
        by_cases hc : c = ' '
        · subst hc
          rw [collapseSpacesF_cons_space] at h
          have hlen : (rest.dropWhile (· = ' ')).length ≤ fuel :=
            le_trans (dropWhile_length_le _ _) hrest
          cases hK : collapseSpacesF fuel (rest.dropWhile (· = ' ')) with
          | nil =>
              have hdnil : rest.dropWhile (· = ' ') = [] :=
                collapseSpacesF_eq_nil fuel _ hK
              have hall : ∀ x ∈ rest, x = ' ' := by
                intro x hx
                have := List.dropWhile_eq_nil_iff.mp hdnil x hx
                simpa using this
              have hall2 : ∀ x ∈ (' ' :: rest : Chars), x = ' ' := by
                intro x hx
                rcases List.mem_cons.mp hx with h' | h'
                · exact h'
                · exact hall x h'
              exact all_spaces_getLast _ (List.cons_ne_nil _ _) hall2
          | cons k K =>
              rw [hK, List.getLast?_cons_cons] at h
              rw [← hK] at h
              have hd : (rest.dropWhile (· = ' ')).getLast? = some ' ' :=
                ih _ hlen h
              have hdne : rest.dropWhile (· = ' ') ≠ [] := by
                intro he
                rw [he, collapseSpacesF_nil] at hK
                exact List.noConfusion hK
              have hrne : rest ≠ [] := by
                intro he
                subst he
                simp at hdne
              rw [getLast?_dropWhile _ rest hdne] at hd
              cases rest with
              | nil => exact absurd rfl hrne
              | cons b tb =>
                  rw [List.getLast?_cons_cons]
                  exact hd
        · rw [collapseSpacesF_cons_other fuel c rest hc] at h
          cases hK : collapseSpacesF fuel rest with
          | nil =>
              rw [hK] at h
              simp only [List.getLast?_singleton, Option.some.injEq] at h
              exact absurd h hc
          | cons k K =>
              rw [hK, List.getLast?_cons_cons, ← hK] at h
              have hd : rest.getLast? = some ' ' := ih rest hrest h
              have hrne : rest ≠ [] := by
                intro he
                subst he
                rw [collapseSpacesF_nil] at hK
                exact List.noConfusion hK
              cases rest with
              | nil => exact absurd rfl hrne
              | cons b tb =>
                  rw [List.getLast?_cons_cons]
                  exact hd

theorem isWordChar_toNat_le (c : Char) (h : isWordChar c = true) :
    c.toNat ≤ 0xFF := by
  simp only [isWordChar, Bool.or_eq_true, Bool.and_eq_true, decide_eq_true_eq] at h
  casesm* _ ∨ _ <;> omega

theorem allowed_bmp (c : Char) (ha : allowedChar c = true) : bmpChar c = true := by
  simp only [allowedChar, Bool.or_eq_true, decide_eq_true_eq] at ha
  simp only [bmpChar, decide_eq_true_eq]
  casesm* _ ∨ _
  · exact le_trans (isWordChar_toNat_le c (by assumption)) (by omega)
  · subst_vars; decide
  · subst_vars; decide

theorem allowed_ws_space (c : Char) (ha : allowedChar c = true)
    (hw : wsChar c = true) : c = ' ' := by
  simp only [wsChar, Bool.or_eq_true, decide_eq_true_eq] at hw
  casesm* _ ∨ _
  all_goals subst_vars
  all_goals first
    | rfl
    | exact absurd ha (by decide)

theorem pyStrip_mem {x : Char} {l : Chars} (h : x ∈ pyStrip l) : x ∈ l := by
  unfold pyStrip at h
  rw [List.mem_reverse] at h
  have h2 := mem_of_mem_dropWhile h
  rw [List.mem_reverse] at h2
  exact mem_of_mem_dropWhile h2

theorem pyStrip_head_not_ws (l : Chars) (c : Char)
    (h : (pyStrip l).head? = some c) : wsChar c = false := by
  unfold pyStrip at h
  rw [List.head?_reverse] at h
  have hne : ((l.dropWhile wsChar).reverse).dropWhile wsChar ≠ [] := by
    intro he
    rw [he] at h
    simp at h
  rw [getLast?_dropWhile wsChar _ hne, List.getLast?_reverse] at h
  exact head?_dropWhile_not_sat wsChar _ c h

theorem pyStrip_getLast_not_ws (l : Chars) (c : Char)
    (h : (pyStrip l).getLast? = some c) : wsChar c = false := by
  unfold pyStrip at h
  rw [List.getLast?_reverse] at h
  exact head?_dropWhile_not_sat wsChar _ c h

theorem pyStrip_collapse_self (v : Chars)
    (hhead : ∀ c, v.head? = some c → wsChar c = false)
    (hlast : ∀ c, v.getLast? = some c → wsChar c = false)
    (hmem : ∀ c ∈ v, wsChar c = true → c = ' ') :
    pyStrip (collapseSpaces v) = collapseSpaces v := by
  have h1 : (collapseSpaces v).dropWhile wsChar = collapseSpaces v := by
    apply dropWhile_eq_self_of_head
    intro c h
    cases v with
    | nil => simp [collapseSpaces, collapseSpacesF_nil] at h
    | cons a t =>
        obtain ⟨u, hu⟩ := collapseSpacesF_cons t.length a t
        rw [show collapseSpaces (a :: t) = collapseSpacesF (t.length + 1) (a :: t)
          from rfl, hu] at h
        simp only [List.head?_cons, Option.some.injEq] at h
        cases h
        exact hhead _ rfl
  have h2 : ((collapseSpaces v).reverse).dropWhile wsChar =
      (collapseSpaces v).reverse := by
    apply dropWhile_eq_self_of_head
    intro c h
    rw [List.head?_reverse] at h
    by_cases hcw : wsChar c = true
    · have hmemv : c ∈ v := by
        rw [show collapseSpaces v = collapseSpacesF v.length v from rfl] at h
        exact collapseSpacesF_mem _ _ le_rfl c (mem_of_getLast?_eq h)
      have hcsp : c = ' ' := hmem c hmemv hcw
      subst hcsp
      have hvl : v.getLast? = some ' ' := by
        rw [show collapseSpaces v = collapseSpacesF v.length v from rfl] at h
        exact collapseSpacesF_getLast _ _ le_rfl h
      have := hlast ' ' hvl
      simp [wsChar] at this
    · exact Bool.eq_false_iff.mpr hcw
  unfold pyStrip
  rw [h1, h2, List.reverse_reverse]

theorem sanitize_filename_mem_allowed (s : Chars) :
    ∀ c ∈ sanitize_filename s, allowedChar c = true := by
  intro c hc
  unfold sanitize_filename at hc
  exact (List.mem_filter.mp (pyStrip_mem hc)).2

theorem sanitize_filename_no_underscore (s : Chars) :
    '_' ∉ sanitize_filename s := by
  intro h
  unfold sanitize_filename at h
  have h1 := pyStrip_mem h
  have h2 := (List.mem_filter.mp h1).1
  rw [show collapseSpaces (colonSub (underscoreSub (s.filter bmpChar))) =
    collapseSpacesF (colonSub (underscoreSub (s.filter bmpChar))).length
      (colonSub (underscoreSub (s.filter bmpChar))) from rfl] at h2
  have h3 := collapseSpacesF_mem _ _ le_rfl _ h2
  have h4 : '_' ∉ underscoreSub (s.filter bmpChar) := by
    rw [underscoreSub_eq_map]
    intro hm
    obtain ⟨a, _, ha⟩ := List.mem_map.mp hm
    exact usMap_ne_underscore a ha
  exact colonSubF_not_mem '_' (by decide) (by decide) _ _ le_rfl h4 h3

theorem sanitize_head_not_ws (s : Chars) (c : Char)
    (h : (sanitize_filename s).head? = some c) : wsChar c = false := by
  unfold sanitize_filename at h
  exact pyStrip_head_not_ws _ c h

theorem sanitize_getLast_not_ws (s : Chars) (c : Char)
    (h : (sanitize_filename s).getLast? = some c) : wsChar c = false := by
  unfold sanitize_filename at h
  exact pyStrip_getLast_not_ws _ c h

/-- C8 (amended): the sanitizer is idempotent only up to space
collapsing — a second application equals one more collapse-spaces pass
over the first result, so it changes the result exactly when removing an
invalid character left two adjacent spaces; on outputs without adjacent
spaces the sanitizer is a fixed point. -/
theorem sanitize_filename_twice (s : Chars) :
    sanitize_filename (sanitize_filename s) =
      collapseSpaces (sanitize_filename s) := by
  have hallow := sanitize_filename_mem_allowed s
  have hnos := sanitize_filename_no_underscore s
  have hnoc : ':' ∉ sanitize_filename s := by
    intro h
    exact absurd (hallow ':' h) (by decide)
  have h1 : (sanitize_filename s).filter bmpChar = sanitize_filename s :=
    List.filter_eq_self.mpr fun a ha => allowed_bmp a (hallow a ha)
  have h2 : underscoreSub (sanitize_filename s) = sanitize_filename s := by
    rw [underscoreSub_eq_map]
    refine map_eq_self_of _ _ fun x hx => ?_
    unfold usMap
    rw [if_neg ?_]
    intro he
    subst he
    exact hnos hx
  have h3 : colonSub (sanitize_filename s) = sanitize_filename s := by
    rw [show colonSub (sanitize_filename s) =
      colonSubF (sanitize_filename s).length (sanitize_filename s) from rfl]
    exact colonSubF_id _ _ le_rfl hnoc
  have h5 : (collapseSpaces (sanitize_filename s)).filter allowedChar =
      collapseSpaces (sanitize_filename s) := by
    refine List.filter_eq_self.mpr fun a ha => hallow a ?_
    rw [show collapseSpaces (sanitize_filename s) =
      collapseSpacesF (sanitize_filename s).length (sanitize_filename s)
      from rfl] at ha
    exact collapseSpacesF_mem _ _ le_rfl a ha
  have hstrip : pyStrip (collapseSpaces (sanitize_filename s)) =
      collapseSpaces (sanitize_filename s) := by
    apply pyStrip_collapse_self
    · exact sanitize_head_not_ws s
    · exact sanitize_getLast_not_ws s
    · exact fun c hc hw => allowed_ws_space c (hallow c hc) hw
  calc sanitize_filename (sanitize_filename s)
      = pyStrip ((collapseSpaces (colonSub (underscoreSub
          ((sanitize_filename s).filter bmpChar)))).filter allowedChar) := rfl
    _ = collapseSpaces (sanitize_filename s) := by
        rw [h1, h2, h3, h5, hstrip]

/-! ### Helper lemmas about the ledger and the response stage -/

theorem ledgerInsert_lookup_self (k : Chars) (v : LedgerEntry) :
    ∀ l : Ledger, List.lookup k (ledgerInsert k v l) = some v := by
  intro l
  induction l with
  | nil => simp [ledgerInsert, List.lookup]
  | cons p rest ih =>
      obtain ⟨k', v'⟩ := p
      by_cases h : k' = k
      · subst h
        simp [ledgerInsert, List.lookup]
      · have hb : (k == k') = false := by simpa using fun he => h he.symm
        simp only [ledgerInsert, if_neg h, List.lookup, hb]
        exact ih

theorem ledgerInsert_lookup_ne (k q : Chars) (v : LedgerEntry) (hne : q ≠ k) :
    ∀ l : Ledger, List.lookup q (ledgerInsert k v l) = List.lookup q l := by
  intro l
  have hb : (q == k) = false := by simpa using hne
  induction l with
  | nil => simp [ledgerInsert, List.lookup, hb]
  | cons p rest ih =>
      obtain ⟨k', v'⟩ := p
      by_cases h : k' = k
      · subst h
        simp [ledgerInsert, List.lookup, hb]
      · by_cases hq : q = k'
        · subst hq
          simp [ledgerInsert, if_neg h, List.lookup]
        · have hb2 : (q == k') = false := by simpa using hq
          simp only [ledgerInsert, if_neg h, List.lookup, hb2]
          exact ih

theorem handleResponse_cases (r : AiResponse) (inp : InputJson) :
    (∃ res w, handleResponse r inp = (some res, [w], .ok)) ∨
    ∃ oc, handleResponse r inp = (none, [], oc) ∧ oc ≠ Outcome.ok := by
  unfold handleResponse
  split
  · exact Or.inr ⟨_, rfl, by decide⟩
  · split
    · exact Or.inr ⟨_, rfl, by decide⟩
    · split
      · exact Or.inr ⟨_, rfl, by decide⟩
      · split
        · unfold saveStage
          split
          · exact Or.inl ⟨_, _, rfl⟩
          · exact Or.inr ⟨_, rfl, by decide⟩
        · exact Or.inr ⟨_, rfl, by decide⟩

theorem process_file_eq (ledger : Ledger) (pathExists : Chars → Bool)
    (file : Chars) (calls : Nat → CallResult) (inp : InputJson) (now : Chars) :
    process_file ledger pathExists file calls inp now =
      match List.lookup (basename file) ledger with
      | some entry =>
          if pathExists entry.output_path then ⟨false, ledger, [], none⟩
          else runAndRecord ledger (basename file) calls inp now
      | none => runAndRecord ledger (basename file) calls inp now := rfl

theorem process_file_eq_entry (ledger : Ledger) (pathExists : Chars → Bool)
    (file : Chars) (calls : Nat → CallResult) (inp : InputJson) (now : Chars)
    (entry : LedgerEntry)
    (hentry : List.lookup (basename file) ledger = some entry) :
    process_file ledger pathExists file calls inp now =
      if pathExists entry.output_path then ⟨false, ledger, [], none⟩
      else runAndRecord ledger (basename file) calls inp now := by
  rw [process_file_eq, hentry]

theorem process_file_eq_none (ledger : Ledger) (pathExists : Chars → Bool)
    (file : Chars) (calls : Nat → CallResult) (inp : InputJson) (now : Chars)
    (hnone : List.lookup (basename file) ledger = none) :
    process_file ledger pathExists file calls inp now =
      runAndRecord ledger (basename file) calls inp now := by
  rw [process_file_eq, hnone]

theorem runAndRecord_spec (ledger : Ledger) (filename : Chars)
    (calls : Nat → CallResult) (inp : InputJson) (now : Chars) :
    (runAndRecord ledger filename calls inp now).aiCalled = true ∧
    (runAndRecord ledger filename calls inp now).writes =
      (reformat_transcript calls inp).writes ∧
    (runAndRecord ledger filename calls inp now).result =
      (reformat_transcript calls inp).result ∧
    ((reformat_transcript calls inp).result = none →
      (runAndRecord ledger filename calls inp now).ledger = ledger) ∧
    (∀ r, (reformat_transcript calls inp).result = some r →
      (runAndRecord ledger filename calls inp now).ledger =
        ledgerInsert filename ⟨r.filepath, now⟩ ledger) := by
  cases heq : (reformat_transcript calls inp).result with
  | some r =>
      simp only [runAndRecord, heq]
      refine ⟨trivial, trivial, trivial, fun hn => Option.noConfusion hn, ?_⟩
      intro r2 hr2
      cases hr2
      rfl
  | none =>
      simp only [runAndRecord, heq]
      exact ⟨trivial, trivial, trivial, fun _ => trivial,
        fun r2 hr2 => Option.noConfusion hr2⟩

theorem reformat_spec (calls : Nat → CallResult) (inp : InputJson) :
    ((reformat_transcript calls inp).result = none →
      (reformat_transcript calls inp).writes = []) ∧
    (∀ r, (reformat_transcript calls inp).result = some r →
      (reformat_transcript calls inp).writes ≠ []) := by
  cases hL : runLoop calls with
  | timedOut n k =>
      simp only [reformat_transcript, hL]
      exact ⟨fun _ => trivial, fun r hr => Option.noConfusion hr⟩
  | requestFailed n k =>
      simp only [reformat_transcript, hL]
      exact ⟨fun _ => trivial, fun r hr => Option.noConfusion hr⟩
  | fellThrough n k =>
      simp only [reformat_transcript, hL]
      exact ⟨fun _ => trivial, fun r hr => Option.noConfusion hr⟩
  | gotResponse r n k =>
      simp only [reformat_transcript, hL]
      rcases handleResponse_cases r inp with ⟨res, w, heq⟩ | ⟨oc, heq, _⟩
      · rw [heq]
        exact ⟨fun hn => Option.noConfusion hn, fun _ _ => by simp⟩
      · rw [heq]
        exact ⟨fun _ => rfl, fun r2 hr2 => Option.noConfusion hr2⟩

theorem dropWhile_append_all (p : Char → Bool) :
    ∀ (a l : Chars), (∀ x ∈ a, p x = true) →
      (a ++ l).dropWhile p = l.dropWhile p := by
  intro a
  induction a with
  | nil => intro l _; rfl
  | cons c t ih =>
      intro l h
      rw [List.cons_append, List.dropWhile_cons,
        if_pos (h c (List.mem_cons_self _ _))]
      exact ih l fun x hx => h x (List.mem_cons_of_mem _ hx)

theorem stripReply_spec (a m b : Chars) (ha : '\x7b' ∉ a) (hb : '\x7d' ∉ b) :
    stripReply (a ++ '\x7b' :: m ++ '\x7d' :: b) = '\x7b' :: m ++ ['\x7d'] := by
  unfold stripReply
  have hassoc : (a ++ '\x7b' :: m ++ '\x7d' :: b : Chars) =
      a ++ '\x7b' :: (m ++ '\x7d' :: b) := by simp
  rw [hassoc]
  have hpa : ∀ x ∈ a, (· ≠ '\x7b' : Char → Bool) x = true := by
    intro x hx
    simp only [decide_eq_true_eq, ne_eq]
    exact fun he => ha (he ▸ hx)
  rw [dropWhile_append_all (· ≠ '\x7b') a ('\x7b' :: (m ++ '\x7d' :: b)) hpa]
  rw [List.dropWhile_cons, if_neg (by simp)]
  have h2 : (('\x7b' :: (m ++ '\x7d' :: b)) : Chars).reverse =
      b.reverse ++ '\x7d' :: (m.reverse ++ ['\x7b']) := by
    simp
  rw [h2]
  have hpb : ∀ x ∈ b.reverse, (· ≠ '\x7d' : Char → Bool) x = true := by
    intro x hx
    simp only [decide_eq_true_eq, ne_eq]
    exact fun he => hb (he ▸ List.mem_reverse.mp hx)
  rw [dropWhile_append_all (· ≠ '\x7d') b.reverse ('\x7d' :: (m.reverse ++ ['\x7b'])) hpb]
  rw [List.dropWhile_cons, if_neg (by simp)]
  simp

/-! ### The claims -/

/-- C1: for an input whose base filename has a ledger entry, if the
entry's recorded output path still exists on disk, `process_file` skips
the input — it returns no result, issues no AI call and leaves everything
unchanged; if the entry exists but the output file is missing, the entry
is treated as stale and the input is reprocessed (the AI is called and the
call's result is returned). -/
theorem process_file_ledger_skip
    (ledger : Ledger) (pathExists : Chars → Bool) (file : Chars)
    (calls : Nat → CallResult) (inp : InputJson) (now : Chars)
    (entry : LedgerEntry)
    (hentry : List.lookup (basename file) ledger = some entry) :
    (pathExists entry.output_path = true →
      process_file ledger pathExists file calls inp now =
        ⟨false, ledger, [], none⟩) ∧
    (pathExists entry.output_path = false →
      (process_file ledger pathExists file calls inp now).aiCalled = true ∧
      (process_file ledger pathExists file calls inp now).result =
        (reformat_transcript calls inp).result) := by
  rw [process_file_eq_entry ledger pathExists file calls inp now entry hentry]
  constructor
  · intro hex
    rw [if_pos hex]
  · intro hex
    rw [if_neg (by simp [hex])]
    exact ⟨(runAndRecord_spec ledger (basename file) calls inp now).1,
      (runAndRecord_spec ledger (basename file) calls inp now).2.2.1⟩

/-- Witness for C1 at a concrete ledger: with the recorded output present
the call is a pure skip; with it absent the AI is called. -/
theorem process_file_ledger_skip_witness :
    process_file [(str "input.json", ⟨str "processed/x/y.json", str "d1"⟩)]
        (fun p => decide (p = str "processed/x/y.json")) (str "dir/input.json")
        callsAllTimeout wInp (str "now") =
      ⟨false, [(str "input.json", ⟨str "processed/x/y.json", str "d1"⟩)], [], none⟩ ∧
    (process_file [(str "input.json", ⟨str "processed/x/y.json", str "d1"⟩)]
        (fun _ => false) (str "dir/input.json")
        callsAllTimeout wInp (str "now")).aiCalled = true := by
  constructor
  · exact (process_file_ledger_skip _ _ _ _ _ _
      ⟨str "processed/x/y.json", str "d1"⟩ (by decide)).1 (by decide)
  · exact ((process_file_ledger_skip _ _ _ _ _ _
      ⟨str "processed/x/y.json", str "d1"⟩ (by decide)).2 (by decide)).1

/-- C2: a run that does not fully succeed writes no output file, and
`process_file` leaves the ledger unchanged whenever it returns no result;
an output file and its ledger entry are created only together, on full
success. -/
theorem no_partial_outputs
    (calls : Nat → CallResult) (inp : InputJson) (ledger : Ledger)
    (pathExists : Chars → Bool) (file : Chars) (now : Chars) :
    ((reformat_transcript calls inp).result = none →
      (reformat_transcript calls inp).writes = []) ∧
    (∀ r, (reformat_transcript calls inp).result = some r →
      (reformat_transcript calls inp).writes ≠ []) ∧
    ((process_file ledger pathExists file calls inp now).result = none →
      (process_file ledger pathExists file calls inp now).ledger = ledger ∧
      (process_file ledger pathExists file calls inp now).writes = []) ∧
    (∀ r, (process_file ledger pathExists file calls inp now).result = some r →
      (process_file ledger pathExists file calls inp now).writes ≠ [] ∧
      List.lookup (basename file)
        (process_file ledger pathExists file calls inp now).ledger =
          some ⟨r.filepath, now⟩) := by
  obtain ⟨hw1, hw2⟩ := reformat_spec calls inp
  obtain ⟨hr1, hr2, hr3, hr4, hr5⟩ :=
    runAndRecord_spec ledger (basename file) calls inp now
  have hrun :
      ((runAndRecord ledger (basename file) calls inp now).result = none →
        (runAndRecord ledger (basename file) calls inp now).ledger = ledger ∧
        (runAndRecord ledger (basename file) calls inp now).writes = []) ∧
      (∀ r, (runAndRecord ledger (basename file) calls inp now).result = some r →
        (runAndRecord ledger (basename file) calls inp now).writes ≠ [] ∧
        List.lookup (basename file)
          (runAndRecord ledger (basename file) calls inp now).ledger =
            some ⟨r.filepath, now⟩) := by
    constructor
    · intro hn
      rw [hr3] at hn
      exact ⟨hr4 hn, by rw [hr2]; exact hw1 hn⟩
    · intro r hr
      rw [hr3] at hr
      refine ⟨by rw [hr2]; exact hw2 r hr, ?_⟩
      rw [hr5 r hr]
      exact ledgerInsert_lookup_self _ _ _
  refine ⟨hw1, hw2, ?_, ?_⟩
  · cases hlk : List.lookup (basename file) ledger with
    | some entry =>
        rw [process_file_eq_entry ledger pathExists file calls inp now entry hlk]
        by_cases hex : pathExists entry.output_path
        · rw [if_pos hex]
          exact fun _ => ⟨rfl, rfl⟩
        · rw [if_neg hex]
          exact hrun.1
    | none =>
        rw [process_file_eq_none ledger pathExists file calls inp now hlk]
        exact hrun.1
  · cases hlk : List.lookup (basename file) ledger with
    | some entry =>
        rw [process_file_eq_entry ledger pathExists file calls inp now entry hlk]
        by_cases hex : pathExists entry.output_path
        · rw [if_pos hex]
          exact fun r hr => Option.noConfusion hr
        · rw [if_neg hex]
          exact hrun.2
    | none =>
        rw [process_file_eq_none ledger pathExists file calls inp now hlk]
        exact hrun.2

/-- Witness for C2: a parse-failing run writes nothing and leaves a
ledger unchanged, and a successful run records the output path. -/
theorem no_partial_outputs_witness :
    (reformat_transcript callsNoJson wInp).writes = [] ∧
    (process_file [] (fun _ => false) (str "f.json") callsNoJson wInp
      (str "now")).ledger = [] ∧
    (process_file [] (fun _ => false) (str "f.json") callsGood wInp
      (str "now")).writes ≠ [] := by
  refine ⟨?_, ?_, ?_⟩
  · exact (no_partial_outputs callsNoJson wInp [] (fun _ => false)
      (str "f.json") (str "now")).1 (by decide)
  · exact ((no_partial_outputs callsNoJson wInp [] (fun _ => false)
      (str "f.json") (str "now")).2.2.1 (by decide)).1
  · exact ((no_partial_outputs callsGood wInp [] (fun _ => false)
      (str "f.json") (str "now")).2.2.2
        ⟨wTitle, wSummary, wContent, wTitle ++ str ".json",
          str "processed/Some Channel/" ++ wTitle ++ str ".json"⟩
        (by decide)).1

/-- C10: when `process_file` records a success, the rewritten ledger is
exactly the ledger read at the start of the call with the input's base
filename inserted or overwritten; the entry of every other filename is
unchanged. -/
theorem process_file_ledger_frame
    (ledger : Ledger) (pathExists : Chars → Bool) (file : Chars)
    (calls : Nat → CallResult) (inp : InputJson) (now : Chars)
    (r : ReformatResult)
    (h : (process_file ledger pathExists file calls inp now).result = some r) :
    (process_file ledger pathExists file calls inp now).ledger =
      ledgerInsert (basename file) ⟨r.filepath, now⟩ ledger ∧
    List.lookup (basename file)
      (process_file ledger pathExists file calls inp now).ledger =
        some ⟨r.filepath, now⟩ ∧
    ∀ k, k ≠ basename file →
      List.lookup k (process_file ledger pathExists file calls inp now).ledger =
        List.lookup k ledger := by
  obtain ⟨hr1, hr2, hr3, hr4, hr5⟩ :=
    runAndRecord_spec ledger (basename file) calls inp now
  cases hlk : List.lookup (basename file) ledger with
  | some entry =>
      rw [process_file_eq_entry ledger pathExists file calls inp now entry hlk]
        at h ⊢
      by_cases hex : pathExists entry.output_path
      · rw [if_pos hex] at h
        exact absurd h (by simp)
      · rw [if_neg hex] at h ⊢
        rw [hr3] at h
        rw [hr5 r h]
        exact ⟨rfl, ledgerInsert_lookup_self _ _ _,
          fun k hk => ledgerInsert_lookup_ne _ k _ hk _⟩
  | none =>
      rw [process_file_eq_none ledger pathExists file calls inp now hlk] at h ⊢
      rw [hr3] at h
      rw [hr5 r h]
      exact ⟨rfl, ledgerInsert_lookup_self _ _ _,
        fun k hk => ledgerInsert_lookup_ne _ k _ hk _⟩

/-- Witness for C10: a concrete successful run overwrites only the key
`in.json` and preserves the entry of `other.json`. -/
theorem process_file_ledger_frame_witness :
    (process_file [(str "other.json", ⟨str "p", str "d0"⟩)] (fun _ => false)
        (str "dir/in.json") callsGood wInp (str "now")).ledger =
      ledgerInsert (str "in.json")
        ⟨str "processed/Some Channel/" ++ wTitle ++ str ".json", str "now"⟩
        [(str "other.json", ⟨str "p", str "d0"⟩)] ∧
    List.lookup (str "other.json")
      (process_file [(str "other.json", ⟨str "p", str "d0"⟩)] (fun _ => false)
        (str "dir/in.json") callsGood wInp (str "now")).ledger =
      some ⟨str "p", str "d0"⟩ := by
  have h := process_file_ledger_frame [(str "other.json", ⟨str "p", str "d0"⟩)]
    (fun _ => false) (str "dir/in.json") callsGood wInp (str "now")
    ⟨wTitle, wSummary, wContent, wTitle ++ str ".json",
      str "processed/Some Channel/" ++ wTitle ++ str ".json"⟩ (by decide)
  refine ⟨h.1, ?_⟩
  rw [h.2.2 (str "other.json") (by decide)]
  decide

/-- C4: a timed-out AI call is retried with a one-second sleep between
attempts up to `MAX_RETRIES` total attempts, and only the final timeout is
surfaced as the timeout error; any other failure of the call is surfaced
immediately as a request error with no further attempt.  `callsMade`
counts issued calls and `sleeps` counts `asyncio.sleep(1)` delays. -/
theorem timeout_retry_policy (calls : Nat → CallResult) (inp : InputJson) :
    ((∀ i, i < MAX_RETRIES → calls i = .timeout) →
      reformat_transcript calls inp =
        ⟨MAX_RETRIES, MAX_RETRIES - 1, [], none, .errTimeout⟩) ∧
    (∀ j, j < MAX_RETRIES → calls j = .failure →
      (∀ i, i < j → calls i = .timeout) →
      reformat_transcript calls inp = ⟨j + 1, j, [], none, .errRequest⟩) := by
  constructor
  · intro h
    have h0 := h 0 (by decide)
    have h1 := h 1 (by decide)
    have h2 := h 2 (by decide)
    simp [reformat_transcript, runLoop, MAX_RETRIES, loopIter, h0, h1, h2]
  · intro j hj hfail hprev
    simp only [MAX_RETRIES] at hj
    interval_cases j
    · simp [reformat_transcript, runLoop, MAX_RETRIES, loopIter, hfail]
    · have h0 := hprev 0 (by decide)
      simp [reformat_transcript, runLoop, MAX_RETRIES, loopIter, h0, hfail]
    · have h0 := hprev 0 (by decide)
      have h1 := hprev 1 (by decide)
      simp [reformat_transcript, runLoop, MAX_RETRIES, loopIter, h0, h1, hfail]

/-- Witness for C4: always-timeout attempts, and a first-attempt
failure. -/
theorem timeout_retry_policy_witness :
    reformat_transcript callsAllTimeout wInp = ⟨3, 2, [], none, .errTimeout⟩ ∧
    reformat_transcript callsAllFail wInp = ⟨1, 0, [], none, .errRequest⟩ := by
  constructor
  · exact (timeout_retry_policy callsAllTimeout wInp).1 fun i _ => rfl
  · exact (timeout_retry_policy callsAllFail wInp).2 0 (by decide) rfl
      (fun i hi => absurd hi (by omega))

/-- C5 counterexample: with every attempt returning a reply that contains
no JSON object, the pipeline issues exactly one AI call and surfaces the
parse failure immediately — it does not re-issue the call up to the
`MAX_RETRIES` attempt budget. -/
theorem parse_retry_counterexample :
    (reformat_transcript callsNoJson wInp).outcome = .errParse ∧
    (reformat_transcript callsNoJson wInp).callsMade = 1 ∧
    (reformat_transcript callsNoJson wInp).callsMade ≠ MAX_RETRIES := by
  decide

/-- C5 (amended): when the AI call succeeds but the reply fails parsing or
validation, the failure is surfaced immediately as a parse error: the
total number of AI calls equals the number the retry loop already made, no
output is written and no result is returned. -/
theorem parse_failure_not_retried (calls : Nat → CallResult) (inp : InputJson)
    (r : AiResponse) (n k : Nat)
    (hloop : runLoop calls = .gotResponse r n k)
    (hparse : (handleResponse r inp).2.2 = .errParse) :
    reformat_transcript calls inp = ⟨n, k, [], none, .errParse⟩ := by
  have hh : handleResponse r inp = (none, [], .errParse) := by
    rcases handleResponse_cases r inp with ⟨res, w, heq⟩ | ⟨oc, heq, _⟩
    · rw [heq] at hparse
      exact Outcome.noConfusion hparse
    · rw [heq] at hparse ⊢
      simp only at hparse
      rw [hparse]
  simp only [reformat_transcript, hloop, hh]

/-- Witness for C5's amended theorem at the no-JSON reply. -/
theorem parse_failure_not_retried_witness :
    reformat_transcript callsNoJson wInp = ⟨1, 0, [], none, .errParse⟩ :=
  parse_failure_not_retried callsNoJson wInp ⟨[some (str "no json here")]⟩ 1 0
    (by decide) (by decide)

/-- C6 counterexample: with every attempt succeeding but carrying an empty
message body, the pipeline fails after exactly one AI call with the
generic exception outcome — the empty body is not treated as retryable and
no attempt budget is consumed. -/
theorem empty_body_counterexample :
    reformat_transcript callsEmptyBody wInp = ⟨1, 0, [], none, .errException⟩ ∧
    (reformat_transcript callsEmptyBody wInp).callsMade ≠ MAX_RETRIES := by
  decide

/-- C6 (amended): a successful AI call whose message body is empty (or
`None`) is surfaced immediately: `reply or None` yields `None`, `re.sub`
raises `TypeError`, and the outer handler ends the run with the generic
exception outcome after the calls the loop already made — there is no
retry and no distinct empty-response error. -/
theorem empty_body_not_retried (calls : Nat → CallResult) (inp : InputJson)
    (c0 : Option Chars) (cs : List (Option Chars)) (n k : Nat)
    (hloop : runLoop calls = .gotResponse ⟨c0 :: cs⟩ n k)
    (hempty : orNone c0 = none) :
    reformat_transcript calls inp = ⟨n, k, [], none, .errException⟩ := by
  have hh : handleResponse ⟨c0 :: cs⟩ inp = (none, [], .errException) := by
    simp only [handleResponse, hempty]
  simp only [reformat_transcript, hloop, hh]

/-- Witness for C6's amended theorem at the empty-string body. -/
theorem empty_body_not_retried_witness :
    reformat_transcript callsEmptyBody wInp = ⟨1, 0, [], none, .errException⟩ :=
  empty_body_not_retried callsEmptyBody wInp (some []) [] 1 0 (by decide) rfl

/-- C3: a parsed document is persisted exactly when all three lengths are
strictly greater than the minimums 20/100/500; a document with any length
exactly at its threshold is skipped and not persisted, while lengths
21/101/501 are accepted. -/
theorem min_length_gate_strict (j : List (Chars × Chars)) (ch t s c : Chars) :
    ((saveStage j ch t s c).1.isSome = true ↔
      min_title_length < t.length ∧ min_summary_length < s.length ∧
        min_content_length < c.length) ∧
    (t.length = 20 ∨ s.length = 100 ∨ c.length = 500 →
      saveStage j ch t s c = (none, [], .skipTooShort)) ∧
    (t.length = 21 → s.length = 101 → c.length = 501 →
      (saveStage j ch t s c).1.isSome = true ∧
      (saveStage j ch t s c).2.2 = .ok) := by
  have hgate : lengthGate t s c = true ↔
      min_title_length < t.length ∧ min_summary_length < s.length ∧
        min_content_length < c.length := by
    simp [lengthGate, and_assoc]
  refine ⟨?_, ?_, ?_⟩
  · by_cases hg : lengthGate t s c = true
    · unfold saveStage
      rw [if_pos hg]
      simpa using hgate.mp hg
    · unfold saveStage
      rw [if_neg hg]
      constructor
      · intro hco
        simp at hco
      · intro hcontra
        exact absurd (hgate.mpr hcontra) hg
  · intro hb
    have hg : ¬ lengthGate t s c = true := by
      intro hg
      have h2 := hgate.mp hg
      simp only [min_title_length, min_summary_length, min_content_length] at h2
      rcases hb with hb | hb | hb
      all_goals omega
    unfold saveStage
    rw [if_neg hg]
  · intro h1 h2 h3
    have hg : lengthGate t s c = true := hgate.mpr (by
      simp only [min_title_length, min_summary_length, min_content_length]
      omega)
    unfold saveStage
    rw [if_pos hg]
    exact ⟨rfl, rfl⟩

/-- Witness for C3 at boundary lengths: 20 is rejected, 21/101/501 is
accepted. -/
theorem min_length_gate_strict_witness :
    saveStage [] (str "ch") (List.replicate 20 't') (List.replicate 101 's')
        (List.replicate 501 'c') = (none, [], .skipTooShort) ∧
    (saveStage [] (str "ch") (List.replicate 21 't') (List.replicate 101 's')
        (List.replicate 501 'c')).1.isSome = true := by
  constructor
  · exact (min_length_gate_strict [] (str "ch") _ _ _).2.1 (Or.inl (by simp))
  · exact ((min_length_gate_strict [] (str "ch") _ _ _).2.2 (by simp) (by simp)
      (by simp)).1

/-- C7: the reply parser keeps exactly the span from the first opening
brace to the last closing brace, discarding everything outside it, and
decodes the span as JSON; on the reply "blah blah ...json... trailing
junk" it yields the document with title "T", summary "S", content "C". -/
theorem reply_brace_extraction :
    (∀ a m b : Chars, '\x7b' ∉ a → '\x7d' ∉ b →
      stripReply (a ++ '\x7b' :: m ++ '\x7d' :: b) = '\x7b' :: m ++ ['\x7d']) ∧
    json_loads (stripReply (str
        "blah blah \x7b\"title\":\"T\",\"summary\":\"S\",\"content\":\"C\"\x7d trailing junk")) =
      some [(str "title", str "T"), (str "summary", str "S"),
        (str "content", str "C")] :=
  ⟨stripReply_spec, by decide⟩

/-- Witness for C7's general part at a concrete split. -/
theorem reply_brace_extraction_witness :
    stripReply (str "xy\x7babc\x7dz") = str "\x7babc\x7d" := by
  have h := reply_brace_extraction.1 (str "xy") (str "abc") (str "z")
    (by decide) (by decide)
  rw [show str "xy\x7babc\x7dz" =
    str "xy" ++ '\x7b' :: str "abc" ++ '\x7d' :: str "z" from by decide, h]
  decide

/-- C8 counterexample: the sanitizer is not idempotent — on "a ! b" the
invalid-character removal leaves a double space that only a second
application collapses, so the second application changes the string. -/
theorem sanitize_not_idempotent_counterexample :
    sanitize_filename (sanitize_filename (str "a ! b")) ≠
      sanitize_filename (str "a ! b") := by
  decide

/-- C9 (amended): every character of a sanitized filename is a word
character (in the Unicode sense of the regex `\w`), a hyphen or a space,
and the output never contains a colon or an underscore. -/
theorem sanitize_filename_char_class (l : Chars) (c : Char)
    (h : c ∈ sanitize_filename l) :
    allowedChar c = true ∧ c ≠ ':' ∧ c ≠ '_' := by
  refine ⟨sanitize_filename_mem_allowed l c h, ?_, ?_⟩
  · intro he
    subst he
    exact absurd (sanitize_filename_mem_allowed l _ h) (by decide)
  · intro he
    subst he
    exact sanitize_filename_no_underscore l h

/-- Witness for C9's amended theorem at a character of a concrete
sanitized filename. -/
theorem sanitize_filename_char_class_witness :
    allowedChar 'H' = true ∧ 'H' ≠ ':' ∧ 'H' ≠ '_' :=
  sanitize_filename_char_class (str "Hello: World!") 'H' (by decide)

/-- C9 counterexample: the sanitizer keeps the Latin-1 letter é (Python's
`\w` is Unicode-aware), so its output is not confined to the ASCII class
`[A-Za-z0-9_\- ]` stated by the spec. -/
theorem sanitize_ascii_class_counterexample :
    sanitize_filename (str "Café") = str "Café" ∧
    'é' ∈ sanitize_filename (str "Café") ∧
    specFilenameClass 'é' = false := by
  refine ⟨by decide, by decide, by decide⟩
